import Mathlib

/-!
# Verification of the `brain4views.py` surface-rendering pipeline

Shallow embedding of `src/workflow/scripts/brain4views.py` (the surface mesh
projection and compositing renderer) in Lean 4, over exact rationals for the
pure arithmetic stages and over the reals for the square-root normalisation of
face normals.  Vertex/face data are lists; numpy index arrays become lists of
natural numbers; colormaps (external matplotlib collaborators) are abstract
functions `ℚ → Color`.
-/

namespace Brain4Views

/-- An RGBA colour with rational channels, as one row of the numpy
`face_colors` array. -/
structure Color where
  r : ℚ
  g : ℚ
  b : ℚ
  a : ℚ
deriving DecidableEq, Repr

/-- Maximum of a list of rationals (`np.max`); 0 on the empty list
(numpy would raise, callers guarantee nonemptiness). -/
def maxQ : List ℚ → ℚ
  | [] => 0
  | x :: xs => xs.foldl max x

/-- Minimum of a list of rationals (`np.min`); 0 on the empty list. -/
def minQ : List ℚ → ℚ
  | [] => 0
  | x :: xs => xs.foldl min x

theorem le_foldl_max (x : ℚ) (xs : List ℚ) : x ≤ xs.foldl max x := by
  induction xs generalizing x with
  | nil => exact le_refl x
  | cons y ys ih => exact le_trans (le_max_left x y) (ih (max x y))

theorem foldl_max_le_of_mem {a : ℚ} : ∀ (xs : List ℚ) (x : ℚ), a ∈ xs →
    a ≤ xs.foldl max x := by
  intro xs
  induction xs with
  | nil => intro x h; cases h
  | cons y ys ih =>
    intro x h
    rcases List.mem_cons.mp h with rfl | h
    · exact le_trans (le_max_right x a) (le_foldl_max _ ys)
    · exact ih (max x y) h

theorem le_maxQ_of_mem {a : ℚ} {l : List ℚ} (h : a ∈ l) : a ≤ maxQ l := by
  cases l with
  | nil => cases h
  | cons x xs =>
    rcases List.mem_cons.mp h with rfl | h
    · exact le_foldl_max a xs
    · exact foldl_max_le_of_mem xs x h

theorem foldl_min_le (x : ℚ) (xs : List ℚ) : xs.foldl min x ≤ x := by
  induction xs generalizing x with
  | nil => exact le_refl x
  | cons y ys ih => exact le_trans (ih (min x y)) (min_le_left x y)

theorem foldl_min_le_of_mem {a : ℚ} : ∀ (xs : List ℚ) (x : ℚ), a ∈ xs →
    xs.foldl min x ≤ a := by
  intro xs
  induction xs with
  | nil => intro x h; cases h
  | cons y ys ih =>
    intro x h
    rcases List.mem_cons.mp h with rfl | h
    · exact le_trans (foldl_min_le _ ys) (min_le_right x a)
    · exact ih (min x y) h

theorem minQ_le_of_mem {a : ℚ} {l : List ℚ} (h : a ∈ l) : minQ l ≤ a := by
  cases l with
  | nil => cases h
  | cons x xs =>
    rcases List.mem_cons.mp h with rfl | h
    · exact foldl_min_le a xs
    · exact foldl_min_le_of_mem xs x h

theorem foldl_max_map_comm (f : ℚ → ℚ) (hf : ∀ a b, f (max a b) = max (f a) (f b))
    (x : ℚ) (xs : List ℚ) : (xs.map f).foldl max (f x) = f (xs.foldl max x) := by
  induction xs generalizing x with
  | nil => rfl
  | cons y ys ih =>
    simp only [List.map_cons, List.foldl_cons]
    rw [← hf x y, ih (max x y)]

theorem foldl_min_map_comm (f : ℚ → ℚ) (hf : ∀ a b, f (min a b) = min (f a) (f b))
    (x : ℚ) (xs : List ℚ) : (xs.map f).foldl min (f x) = f (xs.foldl min x) := by
  induction xs generalizing x with
  | nil => rfl
  | cons y ys ih =>
    simp only [List.map_cons, List.foldl_cons]
    rw [← hf x y, ih (min x y)]

theorem affine_monotone (c R : ℚ) (hR : 0 < R) :
    Monotone (fun x : ℚ => (x - c) / R) :=
  fun _ _ hxy => (div_le_div_right hR).mpr (sub_le_sub_right hxy c)

theorem maxQ_map_affine (c R : ℚ) (hR : 0 < R) (l : List ℚ) (hl : l ≠ []) :
    maxQ (l.map fun x => (x - c) / R) = (maxQ l - c) / R := by
  cases l with
  | nil => exact absurd rfl hl
  | cons x xs =>
    simp only [List.map_cons, maxQ]
    exact foldl_max_map_comm (fun x => (x - c) / R)
      (fun a b => (affine_monotone c R hR).map_max) x xs

theorem minQ_map_affine (c R : ℚ) (hR : 0 < R) (l : List ℚ) (hl : l ≠ []) :
    minQ (l.map fun x => (x - c) / R) = (minQ l - c) / R := by
  cases l with
  | nil => exact absurd rfl hl
  | cons x xs =>
    simp only [List.map_cons, minQ]
    exact foldl_min_map_comm (fun x => (x - c) / R)
      (fun a b => (affine_monotone c R hR).map_min) x xs

/-! ## Mesh normalizer (lines 174-175)

`vert_range = max(vertices.max(0) - vertices.min(0))`
`vertices = (vertices - (vertices.max(0) + vertices.min(0)) / 2) / vert_range` -/

/-- A vertex: 3 rational coordinates indexed by axis. -/
abbrev Vec3 := Fin 3 → ℚ

/-- The list of coordinate values of all vertices along one axis
(one column of the `(n,3)` vertex array). -/
def axisVals (vs : List Vec3) (a : Fin 3) : List ℚ := vs.map (fun v => v a)

/-- Per-axis extent `vertices.max(0) - vertices.min(0)`. -/
def axisExtent (vs : List Vec3) (a : Fin 3) : ℚ :=
  maxQ (axisVals vs a) - minQ (axisVals vs a)

/-- `vert_range = max(vertices.max(0) - vertices.min(0))`: the largest
per-axis extent of the bounding box. -/
def vertRange (vs : List Vec3) : ℚ :=
  max (axisExtent vs 0) (max (axisExtent vs 1) (axisExtent vs 2))

/-- `(vertices.max(0) + vertices.min(0)) / 2`: per-axis midpoint of the
bounding box. -/
def bboxCenter (vs : List Vec3) (a : Fin 3) : ℚ :=
  (maxQ (axisVals vs a) + minQ (axisVals vs a)) / 2

/-- Line 175: every vertex is mapped to `(v - bbox_center) / vert_range`. -/
def normalizeVerts (vs : List Vec3) : List Vec3 :=
  vs.map (fun v a => (v a - bboxCenter vs a) / vertRange vs)

theorem axisVals_normalizeVerts (vs : List Vec3) (a : Fin 3) :
    axisVals (normalizeVerts vs) a
      = (axisVals vs a).map (fun x => (x - bboxCenter vs a) / vertRange vs) := by
  simp [axisVals, normalizeVerts]

theorem axisExtent_le_vertRange (vs : List Vec3) (a : Fin 3) :
    axisExtent vs a ≤ vertRange vs := by
  fin_cases a
  · exact le_max_left _ _
  · exact le_trans (le_max_left _ _) (le_max_right _ _)
  · exact le_trans (le_max_right _ _) (le_max_right _ _)

/-- C5: for a nonempty mesh with positive maximal extent, the normalizer maps
every vertex `v` to `(v - bbox_center) / max_extent`; afterwards the bounding
box midpoint of every axis is `0` and every coordinate lies in `[-1/2, 1/2]`. -/
theorem C5_mesh_normalizer (vs : List Vec3) (hne : vs ≠ [])
    (hR : 0 < vertRange vs) :
    (normalizeVerts vs
        = vs.map (fun v a => (v a - bboxCenter vs a) / vertRange vs))
    ∧ (∀ a : Fin 3,
        (maxQ (axisVals (normalizeVerts vs) a)
          + minQ (axisVals (normalizeVerts vs) a)) / 2 = 0)
    ∧ (∀ w ∈ normalizeVerts vs, ∀ a : Fin 3, -(1/2) ≤ w a ∧ w a ≤ 1/2) := by
  have hax : ∀ a : Fin 3, axisVals vs a ≠ [] := by
    intro a h
    exact hne (by simpa [axisVals] using congrArg List.length h)
  refine ⟨rfl, ?_, ?_⟩
  · intro a
    rw [axisVals_normalizeVerts, maxQ_map_affine _ _ hR _ (hax a),
      minQ_map_affine _ _ hR _ (hax a), div_add_div_same, bboxCenter]
    field_simp
    ring
  · intro w hw a
    rcases List.mem_map.mp hw with ⟨v, hv, rfl⟩
    have hmem : v a ∈ axisVals vs a := List.mem_map.mpr ⟨v, hv, rfl⟩
    have hle : v a ≤ maxQ (axisVals vs a) := le_maxQ_of_mem hmem
    have hge : minQ (axisVals vs a) ≤ v a := minQ_le_of_mem hmem
    have hext : axisExtent vs a ≤ vertRange vs := axisExtent_le_vertRange vs a
    have hub : v a - bboxCenter vs a ≤ vertRange vs / 2 := by
      have : v a - bboxCenter vs a ≤ axisExtent vs a / 2 := by
        simp only [bboxCenter, axisExtent]
        linarith
      linarith
    have hlb : -(vertRange vs / 2) ≤ v a - bboxCenter vs a := by
      have : -(axisExtent vs a / 2) ≤ v a - bboxCenter vs a := by
        simp only [bboxCenter, axisExtent]
        linarith
      linarith
    constructor
    · rw [le_div_iff hR]
      linarith
    · rw [div_le_iff hR]
      linarith

/-- Witness for C5 on a concrete 2-vertex mesh. -/
theorem C5_mesh_normalizer_witness :
    (![(1:ℚ), 2, 3], ![(5:ℚ), 2, 3]) = (![(1:ℚ), 2, 3], ![(5:ℚ), 2, 3]) ∧
    ((normalizeVerts [![(1:ℚ), 2, 3], ![(5:ℚ), 2, 3]]
        = [![(1:ℚ), 2, 3], ![(5:ℚ), 2, 3]].map
            (fun v a => (v a - bboxCenter [![(1:ℚ), 2, 3], ![(5:ℚ), 2, 3]] a)
              / vertRange [![(1:ℚ), 2, 3], ![(5:ℚ), 2, 3]]))
      ∧ (∀ a : Fin 3,
          (maxQ (axisVals (normalizeVerts [![(1:ℚ), 2, 3], ![(5:ℚ), 2, 3]]) a)
            + minQ (axisVals (normalizeVerts [![(1:ℚ), 2, 3], ![(5:ℚ), 2, 3]]) a)) / 2 = 0)
      ∧ (∀ w ∈ normalizeVerts [![(1:ℚ), 2, 3], ![(5:ℚ), 2, 3]], ∀ a : Fin 3,
          -(1/2) ≤ w a ∧ w a ≤ 1/2)) :=
  ⟨rfl, C5_mesh_normalizer _ (by simp) (by norm_num [vertRange, axisExtent, axisVals, maxQ, minQ])⟩

/-! ## Face normals (lines 9-25)

`normalize_v3` divides each component of a 3-vector by its Euclidean length
plus `EPSILON = 1e-12`; `normal_vectors` applies it to the cross product of
the two edge vectors of each face.  Modelled over ℝ since the length is a
square root. -/

noncomputable section

/-- `EPSILON = 1e-12`, the module-level guard against division by zero. -/
def EPSILON : ℝ := 1e-12

/-- Squared Euclidean length of a 3-vector. -/
def sqLen (v : ℝ × ℝ × ℝ) : ℝ := v.1 ^ 2 + v.2.1 ^ 2 + v.2.2 ^ 2

/-- `lens = np.sqrt(arr[:,0]**2 + arr[:,1]**2 + arr[:,2]**2)` for one row. -/
def vlen (v : ℝ × ℝ × ℝ) : ℝ := Real.sqrt (sqLen v)

/-- One row of `normalize_v3`: each component divided by `lens + EPSILON`. -/
def normalize_v3 (v : ℝ × ℝ × ℝ) : ℝ × ℝ × ℝ :=
  (v.1 / (vlen v + EPSILON), v.2.1 / (vlen v + EPSILON), v.2.2 / (vlen v + EPSILON))

/-- Cross product of two 3-vectors, as in `np.cross`. -/
def cross3 (u w : ℝ × ℝ × ℝ) : ℝ × ℝ × ℝ :=
  (u.2.1 * w.2.2 - u.2.2 * w.2.1,
   u.2.2 * w.1 - u.1 * w.2.2,
   u.1 * w.2.1 - u.2.1 * w.1)

/-- Componentwise difference of 3-vectors. -/
def vsub (u w : ℝ × ℝ × ℝ) : ℝ × ℝ × ℝ :=
  (u.1 - w.1, u.2.1 - w.2.1, u.2.2 - w.2.2)

/-- Line 23: the unnormalized face normal
`np.cross(tris[:,1] - tris[:,0], tris[:,2] - tris[:,0])` for one face. -/
def crossEdges (p0 p1 p2 : ℝ × ℝ × ℝ) : ℝ × ℝ × ℝ :=
  cross3 (vsub p1 p0) (vsub p2 p0)

/-- One row of `normal_vectors`: the normalized face normal. -/
def normal_vector (p0 p1 p2 : ℝ × ℝ × ℝ) : ℝ × ℝ × ℝ :=
  normalize_v3 (crossEdges p0 p1 p2)

end

theorem EPSILON_pos : (0:ℝ) < EPSILON := by norm_num [EPSILON]

theorem sqLen_nonneg (v : ℝ × ℝ × ℝ) : 0 ≤ sqLen v := by
  simp only [sqLen]; positivity

theorem sqLen_normalize (v : ℝ × ℝ × ℝ) :
    sqLen (normalize_v3 v) = sqLen v / (vlen v + EPSILON) ^ 2 := by
  have h : (0:ℝ) < vlen v + EPSILON :=
    add_pos_of_nonneg_of_pos (Real.sqrt_nonneg _) EPSILON_pos
  simp only [normalize_v3, sqLen]
  field_simp

/-- C6: the face normal of any non-degenerate (nonzero-area) face is
approximately unit length — its squared row sum is at most 1 and within
`2·EPSILON / ‖n‖` of 1 — and on a degenerate face the division is by
`EPSILON` alone, yielding the finite zero vector rather than an error. -/
theorem C6_normal_unit_length (p0 p1 p2 : ℝ × ℝ × ℝ) :
    (sqLen (crossEdges p0 p1 p2) ≠ 0 →
      sqLen (normal_vector p0 p1 p2) ≤ 1 ∧
      1 - sqLen (normal_vector p0 p1 p2)
        ≤ 2 * EPSILON / vlen (crossEdges p0 p1 p2)) ∧
    (sqLen (crossEdges p0 p1 p2) = 0 →
      normal_vector p0 p1 p2 = (0, 0, 0)) := by
  set n := crossEdges p0 p1 p2 with hn
  have hs : 0 ≤ sqLen n := sqLen_nonneg n
  constructor
  · intro hne
    have hspos : 0 < sqLen n := lt_of_le_of_ne hs (Ne.symm hne)
    have hL : 0 < vlen n := Real.sqrt_pos.mpr hspos
    have hL2 : vlen n ^ 2 = sqLen n := Real.sq_sqrt hs
    have hA : 0 < vlen n + EPSILON := add_pos hL EPSILON_pos
    have heq : sqLen (normal_vector p0 p1 p2)
        = vlen n ^ 2 / (vlen n + EPSILON) ^ 2 := by
      rw [normal_vector, sqLen_normalize, hL2]
    constructor
    · rw [heq, div_le_one (by positivity)]
      nlinarith [hL.le, EPSILON_pos.le]
    · rw [heq]
      have key : 1 - vlen n ^ 2 / (vlen n + EPSILON) ^ 2
          = (2 * vlen n * EPSILON + EPSILON ^ 2) / (vlen n + EPSILON) ^ 2 := by
        field_simp
        ring
      rw [key, div_le_div_iff (by positivity) hL]
      nlinarith [hL, EPSILON_pos]
  · intro hz
    have h1 : n.1 = 0 := by
      have : n.1 ^ 2 = 0 := by
        have := sq_nonneg n.1; have := sq_nonneg n.2.1; have := sq_nonneg n.2.2
        simp only [sqLen] at hz; nlinarith
      exact (pow_eq_zero_iff two_ne_zero).mp this
    have h2 : n.2.1 = 0 := by
      have : n.2.1 ^ 2 = 0 := by
        have := sq_nonneg n.1; have := sq_nonneg n.2.1; have := sq_nonneg n.2.2
        simp only [sqLen] at hz; nlinarith
      exact (pow_eq_zero_iff two_ne_zero).mp this
    have h3 : n.2.2 = 0 := by
      have : n.2.2 ^ 2 = 0 := by
        have := sq_nonneg n.1; have := sq_nonneg n.2.1; have := sq_nonneg n.2.2
        simp only [sqLen] at hz; nlinarith
      exact (pow_eq_zero_iff two_ne_zero).mp this
    simp only [normal_vector, normalize_v3, ← hn, h1, h2, h3, zero_div,
      Prod.mk.injEq, and_self]

/-- Witness for C6: the face ((0,0,0),(3,0,0),(0,4,0)) has nonzero area and a
near-unit normal; the face ((0,0,0),(0,0,0),(1,1,1)) is degenerate and gets
the zero normal. -/
theorem C6_normal_unit_length_witness :
    (sqLen (crossEdges ((0:ℝ), (0:ℝ), (0:ℝ)) (3, 0, 0) (0, 4, 0)) ≠ 0 ∧
      sqLen (normal_vector ((0:ℝ), (0:ℝ), (0:ℝ)) (3, 0, 0) (0, 4, 0)) ≤ 1 ∧
      1 - sqLen (normal_vector ((0:ℝ), (0:ℝ), (0:ℝ)) (3, 0, 0) (0, 4, 0))
        ≤ 2 * EPSILON / vlen (crossEdges ((0:ℝ), (0:ℝ), (0:ℝ)) (3, 0, 0) (0, 4, 0))) ∧
    (sqLen (crossEdges ((0:ℝ), (0:ℝ), (0:ℝ)) (0, 0, 0) (1, 1, 1)) = 0 ∧
      normal_vector ((0:ℝ), (0:ℝ), (0:ℝ)) (0, 0, 0) (1, 1, 1) = (0, 0, 0)) := by
  have hne : sqLen (crossEdges ((0:ℝ), (0:ℝ), (0:ℝ)) (3, 0, 0) (0, 4, 0)) ≠ 0 := by
    norm_num [crossEdges, cross3, vsub, sqLen]
  have hz : sqLen (crossEdges ((0:ℝ), (0:ℝ), (0:ℝ)) (0, 0, 0) (1, 1, 1)) = 0 := by
    norm_num [crossEdges, cross3, vsub, sqLen]
  exact ⟨⟨hne, (C6_normal_unit_length _ _ _).1 hne⟩,
    ⟨hz, (C6_normal_unit_length _ _ _).2 hz⟩⟩

/-! ## Lighting intensity rescale (lines 177-183)

```
light = np.array([0, 0, 1])
intensity = np.dot(face_normals, light)
shading = 0.7
denom = np.percentile(intensity, 80) - np.min(intensity)
intensity = (1 - shading) + shading * (intensity - np.min(intensity)) / denom
intensity[intensity > 1] = 1
```
The rescale stage is modelled as a function of the raw per-face intensity
array (the dot products of the face normals with `(0,0,1)`). -/

/-- Ascending sort of a rational list, as `np.sort`. -/
def sortQ (l : List ℚ) : List ℚ := List.insertionSort (fun a b : ℚ => a ≤ b) l

/-- `np.percentile(l, 80)` with numpy's default linear interpolation:
position `h = (n-1)·0.8` in the ascending sort, interpolated between the
neighbouring order statistics. -/
def percentile80 (l : List ℚ) : ℚ :=
  let s := sortQ l
  let h : ℚ := ((l.length : ℚ) - 1) * (4/5)
  let lo : ℕ := (Int.floor h).toNat
  let frac : ℚ := h - (lo : ℚ)
  s.getD lo 0 + frac * (s.getD (lo + 1) (s.getD lo 0) - s.getD lo 0)

/-- `shading = 0.7` (line 179). -/
def shading : ℚ := 7/10

/-- Lines 181-183, exactly as the code: subtract the array minimum, divide by
(80th percentile − minimum), apply `(1-shading) + shading * ·`, then clip
values above 1 down to 1.  There is no flooring of the raw intensities. -/
def rescale_intensity (v : List ℚ) : List ℚ :=
  let denom := percentile80 v - minQ v
  let v2 := v.map (fun x => (1 - shading) + shading * (x - minQ v) / denom)
  v2.map (fun x => if 1 < x then 1 else x)

/-- The rescale as the spec/claim words it: raw intensity "floored at 0, then
linearly remapped so that the 80th percentile of intensity maps to 1.0 and
clipped above at 1.0", final value `(1-shading) + shading * rescaled`.
Written only to be compared against `rescale_intensity`; the flooring is the
difference under test. -/
def rescale_intensity_specModel (v : List ℚ) : List ℚ :=
  let w := v.map (fun x => max x 0)
  let denom := percentile80 w - minQ w
  let r := w.map (fun x => min 1 ((x - minQ w) / denom))
  r.map (fun x => (1 - shading) + shading * x)

theorem getD_map_lt (f : ℚ → ℚ) (l : List ℚ) (i : ℕ) (h : i < l.length)
    (d e : ℚ) : (l.map f).getD i d = f (l.getD i e) := by
  simp [List.getD_eq_getElem?_getD, List.getElem?_map,
    List.getElem?_eq_getElem h]

/-- C3 counterexample: on the intensity array `[-1, 0, 1, 1, 1]` the code
output differs from the spec's floor-at-0 description; the code maps the
second face to `13/20`, while after flooring the first two faces would have
to receive equal values (the spec model gives `3/10` there). -/
theorem C3_intensity_rescale_counterexample :
    rescale_intensity [-1, 0, 1, 1, 1]
        ≠ rescale_intensity_specModel [-1, 0, 1, 1, 1]
    ∧ (rescale_intensity [-1, 0, 1, 1, 1]).getD 1 0 = 13/20
    ∧ (rescale_intensity_specModel [-1, 0, 1, 1, 1]).getD 1 0 = 3/10
    ∧ (rescale_intensity [-1, 0, 1, 1, 1]).getD 0 0
        ≠ (rescale_intensity [-1, 0, 1, 1, 1]).getD 1 0
    ∧ max (-1 : ℚ) 0 = max (0 : ℚ) 0 := by
  norm_num [rescale_intensity, rescale_intensity_specModel, percentile80, sortQ,
    minQ, shading, List.insertionSort, List.orderedInsert, List.getD,
    max_def, min_def, show Int.toNat 3 = 3 from rfl]

/-- C3 amended: the raw intensity is not floored at 0; instead the array
minimum is subtracted, the result divided by (80th percentile − minimum),
mapped through `(1-shading) + shading * ·` with `shading = 0.7`, and clipped
above at 1.  Hence the minimum maps to `1 - shading` and every face at or
above the 80th percentile maps to exactly 1. -/
theorem C3_intensity_rescale_amended (v : List ℚ) (i : ℕ) (hi : i < v.length)
    (hd : 0 < percentile80 v - minQ v) :
    (rescale_intensity v).getD i 0
      = min 1 ((1 - shading)
          + shading * (v.getD i 0 - minQ v) / (percentile80 v - minQ v))
    ∧ (v.getD i 0 = minQ v → (rescale_intensity v).getD i 0 = 1 - shading)
    ∧ (percentile80 v ≤ v.getD i 0 → (rescale_intensity v).getD i 0 = 1) := by
  have hlen : i < (v.map (fun x =>
      (1 - shading) + shading * (x - minQ v) / (percentile80 v - minQ v))).length := by
    simpa using hi
  have hmain : (rescale_intensity v).getD i 0
      = min 1 ((1 - shading)
          + shading * (v.getD i 0 - minQ v) / (percentile80 v - minQ v)) := by
    unfold rescale_intensity
    rw [getD_map_lt _ _ i hlen 0 0, getD_map_lt _ _ i hi 0 0]
    rcases le_or_lt ((1 - shading)
        + shading * (v.getD i 0 - minQ v) / (percentile80 v - minQ v)) 1 with h | h
    · rw [if_neg (not_lt.mpr h), min_eq_right h]
    · rw [if_pos h, min_eq_left h.le]
  refine ⟨hmain, ?_, ?_⟩
  · intro hmin
    rw [hmain, hmin]
    norm_num [shading]
  · intro hp
    rw [hmain]
    have hr : 1 ≤ (v.getD i 0 - minQ v) / (percentile80 v - minQ v) :=
      (one_le_div hd).mpr (by linarith)
    have : 1 ≤ (1 - shading)
        + shading * (v.getD i 0 - minQ v) / (percentile80 v - minQ v) := by
      have hs : (0:ℚ) < shading := by norm_num [shading]
      rw [mul_div_assoc]
      nlinarith
    exact min_eq_left this

/-- Witness for the amended C3 on the array `[-1, 0, 1, 1, 1]` at index 1. -/
theorem C3_intensity_rescale_amended_witness :
    ((1:ℕ) < ([-1, 0, 1, 1, 1] : List ℚ).length
      ∧ 0 < percentile80 [-1, 0, 1, 1, 1] - minQ [-1, 0, 1, 1, 1])
    ∧ ((rescale_intensity [-1, 0, 1, 1, 1]).getD 1 0
        = min 1 ((1 - shading)
            + shading * (([-1, 0, 1, 1, 1] : List ℚ).getD 1 0 - minQ [-1, 0, 1, 1, 1])
              / (percentile80 [-1, 0, 1, 1, 1] - minQ [-1, 0, 1, 1, 1]))
      ∧ (([-1, 0, 1, 1, 1] : List ℚ).getD 1 0 = minQ [-1, 0, 1, 1, 1] →
          (rescale_intensity [-1, 0, 1, 1, 1]).getD 1 0 = 1 - shading)
      ∧ (percentile80 [-1, 0, 1, 1, 1] ≤ ([-1, 0, 1, 1, 1] : List ℚ).getD 1 0 →
          (rescale_intensity [-1, 0, 1, 1, 1]).getD 1 0 = 1)) :=
  ⟨⟨by norm_num,
    by norm_num [percentile80, sortQ, minQ, List.insertionSort,
      List.orderedInsert, List.getD, show Int.toNat 3 = 3 from rfl]⟩,
    C3_intensity_rescale_amended [-1, 0, 1, 1, 1] 1 (by norm_num)
      (by norm_num [percentile80, sortQ, minQ, List.insertionSort,
        List.orderedInsert, List.getD, show Int.toNat 3 = 3 from rfl])⟩

/-! ## Vertex-to-face attribute reduction (lines 209-215, 234, 267-270)

`sulc_faces = np.mean(sulc[faces], axis=1)` — always the mean;
`label_mask_faces = [np.median(L[faces], axis=1) for L in label_masks]` —
always the median; only the overlay reduction consults `avg_method`. -/

/-- A triangular face: three vertex indices. -/
abbrev Face := ℕ × ℕ × ℕ

/-- The `avg_method` parameter, `{'mean', 'median'}`. -/
inductive AvgMethod where
  | mean
  | median
deriving DecidableEq, Repr

/-- Median of three values: the middle order statistic, as `np.median` on a
row of 3. -/
def median3 (a b c : ℚ) : ℚ := max (min a b) (min (max a b) c)

/-- Mean of the 3 vertex values of one face. -/
def meanFace (vals : List ℚ) (f : Face) : ℚ :=
  (vals.getD f.1 0 + vals.getD f.2.1 0 + vals.getD f.2.2 0) / 3

/-- Median of the 3 vertex values of one face. -/
def medianFace (vals : List ℚ) (f : Face) : ℚ :=
  median3 (vals.getD f.1 0) (vals.getD f.2.1 0) (vals.getD f.2.2 0)

/-- Line 209: `sulc_faces = np.mean(sulc[faces], axis=1)`. -/
def sulcFaces (sulc : List ℚ) (faces : List Face) : List ℚ :=
  faces.map (meanFace sulc)

/-- Lines 211-215: binarize the sulcal face values at 0, unless all values
are equal. -/
def binarizeSulc (s : List ℚ) : List ℚ :=
  if minQ s ≠ maxQ s then s.map (fun x => if x ≤ 0 then 0 else 1) else s

/-- Line 234: per-face label mask values, by median. -/
def labelMaskFaces (L : List ℚ) (faces : List Face) : List ℚ :=
  faces.map (medianFace L)

/-- Lines 267-270: overlay reduction by the configured `avg_method`. -/
def overlayFaces (am : AvgMethod) (overlay : List ℚ) (faces : List Face) :
    List ℚ :=
  match am with
  | .mean => faces.map (meanFace overlay)
  | .median => faces.map (medianFace overlay)

/-- The per-face values produced by the reduction stage. -/
structure FaceReduction where
  sulcF : List ℚ
  labelF : List (List ℚ)
  overlayF : Option (List ℚ)

/-- The whole reduction stage: binarized sulcal faces, label-mask faces and
(optional) overlay faces, with `avg_method` consulted only for the overlay. -/
def reduceStage (am : AvgMethod) (sulc : List ℚ) (labelsV : List (List ℚ))
    (overlay : Option (List ℚ)) (faces : List Face) : FaceReduction :=
  { sulcF := binarizeSulc (sulcFaces sulc faces)
    labelF := labelsV.map (fun L => labelMaskFaces L faces)
    overlayF := overlay.map (fun o => overlayFaces am o faces) }

/-- C7: for every `avg_method`, the sulcal face values are the means of the 3
vertex values and the label-mask face values the medians; the sulcal values
are then binarized (≤ 0 ↦ 0, > 0 ↦ 1) exactly when they are not all equal,
and left untouched when they are all equal. -/
theorem C7_fixed_reduction_policy (am : AvgMethod) (sulc : List ℚ)
    (labelsV : List (List ℚ)) (overlay : Option (List ℚ)) (faces : List Face) :
    ((reduceStage am sulc labelsV overlay faces).sulcF
        = binarizeSulc (faces.map (meanFace sulc)))
    ∧ ((reduceStage am sulc labelsV overlay faces).labelF
        = labelsV.map (fun L => faces.map (medianFace L)))
    ∧ (minQ (sulcFaces sulc faces) ≠ maxQ (sulcFaces sulc faces) →
        binarizeSulc (sulcFaces sulc faces)
          = (sulcFaces sulc faces).map (fun x => if x ≤ 0 then 0 else 1))
    ∧ (minQ (sulcFaces sulc faces) = maxQ (sulcFaces sulc faces) →
        binarizeSulc (sulcFaces sulc faces) = sulcFaces sulc faces) := by
  refine ⟨rfl, rfl, ?_, ?_⟩
  · intro h
    simp only [binarizeSulc, if_pos h]
  · intro h
    simp only [binarizeSulc, h, ne_eq, not_true_eq_false, if_false]

/-- Witness for C7: a 2-face mesh with unequal sulcal values (binarized) and
a 1-face mesh with equal values (untouched). -/
theorem C7_fixed_reduction_policy_witness :
    (minQ (sulcFaces [-1, -1, -1, 3, 3, 3] [(0, 1, 2), (3, 4, 5)])
        ≠ maxQ (sulcFaces [-1, -1, -1, 3, 3, 3] [(0, 1, 2), (3, 4, 5)])
      ∧ binarizeSulc (sulcFaces [-1, -1, -1, 3, 3, 3] [(0, 1, 2), (3, 4, 5)])
        = (sulcFaces [-1, -1, -1, 3, 3, 3] [(0, 1, 2), (3, 4, 5)]).map
            (fun x => if x ≤ 0 then 0 else 1))
    ∧ (minQ (sulcFaces [2, 2, 2] [(0, 1, 2)])
        = maxQ (sulcFaces [2, 2, 2] [(0, 1, 2)])
      ∧ binarizeSulc (sulcFaces [2, 2, 2] [(0, 1, 2)])
        = sulcFaces [2, 2, 2] [(0, 1, 2)]) := by
  have h1 : minQ (sulcFaces [-1, -1, -1, 3, 3, 3] [(0, 1, 2), (3, 4, 5)])
      ≠ maxQ (sulcFaces [-1, -1, -1, 3, 3, 3] [(0, 1, 2), (3, 4, 5)]) := by
    norm_num [sulcFaces, meanFace, minQ, maxQ, List.getD, min_def, max_def]
  have h2 : minQ (sulcFaces [2, 2, 2] [(0, 1, 2)])
      = maxQ (sulcFaces [2, 2, 2] [(0, 1, 2)]) := by
    norm_num [sulcFaces, meanFace, minQ, maxQ, List.getD]
  exact ⟨⟨h1, (C7_fixed_reduction_policy .mean _ [] none _).2.2.1 h1⟩,
    ⟨h2, (C7_fixed_reduction_policy .mean _ [] none _).2.2.2 h2⟩⟩

/-! ## Default sulcal map and base colors (lines 199-200, 253-255) -/

/-- Lines 199-200: `sulc = np.ones(n_vertices) * 0.5` when no sulcal map is
given. -/
def defaultSulc (nverts : ℕ) : List ℚ := List.replicate nverts (1/2)

/-- Line 255: `face_colors = greys_narrow(sulc_faces)`; the narrowed
greyscale colormap (an external matplotlib object) is abstract. -/
def baseColors (greysNarrow : ℚ → Color) (sulcF : List ℚ) : List Color :=
  sulcF.map greysNarrow

theorem foldl_min_replicate (x : ℚ) (k : ℕ) :
    (List.replicate k x).foldl min x = x := by
  induction k with
  | zero => rfl
  | succ n ih => simpa [List.replicate_succ, min_self] using ih

theorem foldl_max_replicate (x : ℚ) (k : ℕ) :
    (List.replicate k x).foldl max x = x := by
  induction k with
  | zero => rfl
  | succ n ih => simpa [List.replicate_succ, max_self] using ih

theorem getD_replicate_of_lt {n i : ℕ} (x d : ℚ) (h : i < n) :
    (List.replicate n x).getD i d = x := by
  simp [List.getD_eq_getElem?_getD, List.getElem?_replicate, h]

/-- C10: with `sulc_maps = None` every vertex gets sulcal value 1/2, so every
face's mean is 1/2, the binarization is skipped (all values equal), and every
face's base color is the narrowed greyscale colormap at 1/2. -/
theorem C10_default_sulc_mid_grey (nverts : ℕ) (faces : List Face)
    (greysNarrow : ℚ → Color)
    (hf : ∀ f ∈ faces, f.1 < nverts ∧ f.2.1 < nverts ∧ f.2.2 < nverts) :
    sulcFaces (defaultSulc nverts) faces = List.replicate faces.length (1/2)
    ∧ binarizeSulc (sulcFaces (defaultSulc nverts) faces)
        = sulcFaces (defaultSulc nverts) faces
    ∧ baseColors greysNarrow (binarizeSulc (sulcFaces (defaultSulc nverts) faces))
        = List.replicate faces.length (greysNarrow (1/2)) := by
  have hsf : sulcFaces (defaultSulc nverts) faces
      = List.replicate faces.length (1/2) := by
    rw [List.eq_replicate_iff]
    refine ⟨by simp [sulcFaces], ?_⟩
    intro b hb
    rcases List.mem_map.mp hb with ⟨f, hfm, rfl⟩
    obtain ⟨h1, h2, h3⟩ := hf f hfm
    rw [meanFace, defaultSulc, getD_replicate_of_lt _ _ h1,
      getD_replicate_of_lt _ _ h2, getD_replicate_of_lt _ _ h3]
    norm_num
  have hbin : binarizeSulc (sulcFaces (defaultSulc nverts) faces)
      = sulcFaces (defaultSulc nverts) faces := by
    rw [hsf, binarizeSulc]
    cases faces with
    | nil => simp
    | cons f fs =>
      rw [if_neg]
      simp only [List.length_cons, List.replicate_succ, minQ, maxQ, ne_eq,
        not_not, foldl_min_replicate, foldl_max_replicate]
  refine ⟨hsf, hbin, ?_⟩
  rw [hbin, hsf, baseColors, List.map_replicate]

/-- Witness for C10 on a concrete 2-face, 4-vertex mesh. -/
theorem C10_default_sulc_mid_grey_witness :
    (∀ f ∈ ([(0, 1, 2), (1, 2, 3)] : List Face),
        f.1 < 4 ∧ f.2.1 < 4 ∧ f.2.2 < 4)
    ∧ (sulcFaces (defaultSulc 4) [(0, 1, 2), (1, 2, 3)]
        = List.replicate ([(0, 1, 2), (1, 2, 3)] : List Face).length (1/2)
      ∧ binarizeSulc (sulcFaces (defaultSulc 4) [(0, 1, 2), (1, 2, 3)])
          = sulcFaces (defaultSulc 4) [(0, 1, 2), (1, 2, 3)]
      ∧ baseColors (fun _ => Color.mk 0 0 0 1)
            (binarizeSulc (sulcFaces (defaultSulc 4) [(0, 1, 2), (1, 2, 3)]))
          = List.replicate ([(0, 1, 2), (1, 2, 3)] : List Face).length
              (Color.mk 0 0 0 1)) := by
  have hf : ∀ f ∈ ([(0, 1, 2), (1, 2, 3)] : List Face),
      f.1 < 4 ∧ f.2.1 < 4 ∧ f.2.2 < 4 := by decide
  exact ⟨hf, C10_default_sulc_mid_grey 4 _ (fun _ => Color.mk 0 0 0 1) hf⟩

/-! ## Kept-face indices and thresholding (lines 258-263, 279-281)

```
kept_indices = np.arange(...) or np.where(mask_faces >= 0.5)[0]
valid_indices = np.where(np.abs(overlay_faces) >= threshold)[0]
kept_indices = [i for i in kept_indices if i in valid_indices]
```
-/

/-- Lines 258-263: face indices kept by the cortex mask — all faces when no
mask is given, otherwise the faces whose median mask value is ≥ 1/2. -/
def keptCortex (cmask : Option (List ℚ)) (faces : List Face) : List ℕ :=
  match cmask with
  | none => List.range faces.length
  | some mask => (List.range faces.length).filter
      (fun i => decide ((1:ℚ)/2 ≤ (labelMaskFaces mask faces).getD i 0))

/-- Lines 262-263: face indices masked out by the cortex mask. -/
def maskedIndices (mask : List ℚ) (faces : List Face) : List ℕ :=
  (List.range faces.length).filter
    (fun i => decide ((labelMaskFaces mask faces).getD i 0 < (1:ℚ)/2))

/-- Lines 279-281: with a threshold, keep only the kept indices whose face
also appears in `np.where(np.abs(overlay_faces) >= threshold)[0]`. -/
def keptWithThreshold (kept : List ℕ) (ovF : List ℚ) (t : Option ℚ) :
    List ℕ :=
  match t with
  | none => kept
  | some th => kept.filter (fun i => decide (i < ovF.length ∧ th ≤ |ovF.getD i 0|))

/-- C4: the kept-face set under a threshold is the intersection of the
cortex-kept set with the faces of absolute overlay value ≥ threshold, and
raising the threshold never increases the kept-face count. -/
theorem C4_threshold_kept_faces (cmask : Option (List ℚ)) (faces : List Face)
    (ovF : List ℚ) (t t1 t2 : ℚ) (h12 : t1 ≤ t2) :
    (∀ i : ℕ, i ∈ keptWithThreshold (keptCortex cmask faces) ovF (some t)
        ↔ i ∈ keptCortex cmask faces ∧ i < ovF.length ∧ t ≤ |ovF.getD i 0|)
    ∧ (keptWithThreshold (keptCortex cmask faces) ovF (some t2)).length
        ≤ (keptWithThreshold (keptCortex cmask faces) ovF (some t1)).length := by
  constructor
  · intro i
    simp [keptWithThreshold, List.mem_filter]
  · apply List.Sublist.length_le
    apply List.monotone_filter_right
    intro a ha
    rcases of_decide_eq_true ha with ⟨h1, h2⟩
    exact decide_eq_true_eq.mpr ⟨h1, le_trans h12 h2⟩

/-- Witness for C4 on a 3-face mesh with overlay face values [1, -2, 3] and
thresholds 2 ≤ 3. -/
theorem C4_threshold_kept_faces_witness :
    ((2:ℚ) ≤ 3)
    ∧ ((∀ i : ℕ,
        i ∈ keptWithThreshold (keptCortex none [(0,1,2),(0,1,2),(0,1,2)])
              [1, -2, 3] (some 2)
          ↔ i ∈ keptCortex none [(0,1,2),(0,1,2),(0,1,2)]
              ∧ i < ([1, -2, 3] : List ℚ).length
              ∧ 2 ≤ |([1, -2, 3] : List ℚ).getD i 0|)
      ∧ (keptWithThreshold (keptCortex none [(0,1,2),(0,1,2),(0,1,2)])
            [1, -2, 3] (some 3)).length
          ≤ (keptWithThreshold (keptCortex none [(0,1,2),(0,1,2),(0,1,2)])
              [1, -2, 3] (some 2)).length) :=
  ⟨by norm_num,
    C4_threshold_kept_faces none [(0,1,2),(0,1,2),(0,1,2)] [1, -2, 3] 2 2 3
      (by norm_num)⟩

/-! ## vmin/vmax resolution across hemispheres (lines 166, 273-276)

`vmin`/`vmax` are function-level variables reassigned inside the hemisphere
loop: once hemisphere 0 computes them from its own overlay faces, hemisphere
1 sees non-`None` values and reuses them.  (The model is NaN-free, so
`np.nanmin`/`np.nanmax` are plain minimum/maximum.) -/

/-- One execution of lines 273-276: resolve the current `vmin`/`vmax`
(compute from the overlay face values when still `None`) and return both the
bounds used for this hemisphere and the updated loop state. -/
def updateBounds (st : Option ℚ × Option ℚ) (ovF : List ℚ) :
    (ℚ × ℚ) × (Option ℚ × Option ℚ) :=
  let vmin := st.1.getD (minQ ovF)
  let vmax := st.2.getD (maxQ ovF)
  ((vmin, vmax), (some vmin, some vmax))

/-- The `(vmin, vmax)` pairs actually used for hemisphere 0 and hemisphere 1
when the loop starts from the caller-passed optional bounds. -/
def boundsUsed (vmin0 vmax0 : Option ℚ) (ov0 ov1 : List ℚ) :
    (ℚ × ℚ) × (ℚ × ℚ) :=
  let r0 := updateBounds (vmin0, vmax0) ov0
  let r1 := updateBounds r0.2 ov1
  (r0.1, r1.1)

/-- C9: when `vmin` and `vmax` are passed as `None` and both hemispheres have
overlays, both hemispheres are normalized with the minimum/maximum of the
*first* hemisphere's overlay face values; the second hemisphere's own data
never enters the bounds. -/
theorem C9_bounds_reused_from_first_hemisphere (ov0 ov1 : List ℚ) :
    boundsUsed none none ov0 ov1 = ((minQ ov0, maxQ ov0), (minQ ov0, maxQ ov0)) := by
  rfl

/-! ## Colour compositing before the lighting multiply (lines 253-296)

Stage order as in the code: greyscale base from the binarized sulcal faces,
overlay colormap on the kept faces, light-grey override of non-cortex faces,
then multiplicative label tints.  The `face_colors` array is modelled as a
function `ℕ → Color`; the two colormaps are abstract functions `ℚ → Color`. -/

/-- Elementwise RGBA product, the label "blend (multiply)" of line 296. -/
def tint (c lc : Color) : Color :=
  ⟨c.r * lc.r, c.g * lc.g, c.b * lc.b, c.a * lc.a⟩

/-- Lines 226-227: `c[0, 3] = label_alpha` — a colour with its alpha channel
replaced. -/
def setAlpha (c : Color) (al : ℚ) : Color := ⟨c.r, c.g, c.b, al⟩

/-- Line 290: the flat light grey `[0.85, 0.85, 0.85, 1]` for non-cortex
faces. -/
def lightGrey : Color := ⟨85/100, 85/100, 85/100, 1⟩

/-- Lines 284-286: kept faces get the colormap of the normalized overlay
value `(v - vmin) / (vmax - vmin)`. -/
def overlayAssign (colors : ℕ → Color) (cm : ℚ → Color) (ovF : List ℚ)
    (vmin vmax : ℚ) (kept : List ℕ) : ℕ → Color :=
  fun i => if i ∈ kept then cm ((ovF.getD i 0 - vmin) / (vmax - vmin)) else colors i

/-- Lines 289-290: masked (non-cortex) faces overridden to light grey. -/
def maskAssign (colors : ℕ → Color) (masked : List ℕ) : ℕ → Color :=
  fun i => if i ∈ masked then lightGrey else colors i

/-- One iteration of the label loop (lines 293-296): faces with mask value
≥ 1/2 have their colour multiplied by this label's colour. -/
def labelStep (p : List ℚ × Color) (cs : ℕ → Color) : ℕ → Color :=
  fun i => if (1:ℚ)/2 ≤ p.1.getD i 0 then tint (cs i) p.2 else cs i

/-- Lines 293-296: for each (label-mask faces, colour) pair in input order,
faces with mask value ≥ 1/2 have their colour multiplied by the label
colour (whose alpha was preset to `label_alpha` before the loop). -/
def labelAssign (colors : ℕ → Color) (pairs : List (List ℚ × Color)) :
    ℕ → Color :=
  pairs.foldl (fun cs p => labelStep p cs) colors

/-- Lines 253-296: the face-colour buffer just before the lighting multiply
(line 298).  `sulcB` is the binarized sulcal face list, `labelsV` the
per-vertex label masks, `lcs` the label colours. -/
def faceColorsPreLight (g cm : ℚ → Color) (sulcB : List ℚ)
    (cmask : Option (List ℚ)) (ov : Option (List ℚ)) (vmin vmax : ℚ)
    (t : Option ℚ) (labelsV : List (List ℚ)) (lcs : List Color) (al : ℚ)
    (faces : List Face) : ℕ → Color :=
  let base := fun i => g (sulcB.getD i 0)
  let kept := keptCortex cmask faces
  let afterOv :=
    match ov with
    | none => base
    | some o => overlayAssign base cm o vmin vmax (keptWithThreshold kept o t)
  let afterMask :=
    match cmask with
    | none => afterOv
    | some m => maskAssign afterOv (maskedIndices m faces)
  labelAssign afterMask
    ((labelsV.map (fun L => labelMaskFaces L faces)).zip
      (lcs.map (fun c => setAlpha c al)))

theorem labelAssign_apply (ps : List (List ℚ × Color)) (colors : ℕ → Color)
    (i : ℕ) :
    labelAssign colors ps i
      = (ps.filter (fun p => decide ((1:ℚ)/2 ≤ p.1.getD i 0))).foldl
          (fun c p => tint c p.2) (colors i) := by
  induction ps generalizing colors with
  | nil => rfl
  | cons p rest ih =>
    show labelAssign (labelStep p colors) rest i = _
    rw [ih]
    by_cases h : (1:ℚ)/2 ≤ p.1.getD i 0
    · have hstep : labelStep p colors i = tint (colors i) p.2 := if_pos h
      rw [hstep, List.filter_cons, if_pos (decide_eq_true_eq.mpr h),
        List.foldl_cons]
    · have hstep : labelStep p colors i = colors i := if_neg h
      rw [hstep, List.filter_cons, if_neg (by simpa using h)]

theorem mem_kept_of_mem_keptWithThreshold {kept : List ℕ} {ovF : List ℚ}
    {t : Option ℚ} {i : ℕ} (h : i ∈ keptWithThreshold kept ovF t) :
    i ∈ kept := by
  cases t with
  | none => exact h
  | some th => exact (List.mem_filter.mp h).1

/-- C1: any face in the overlay kept-set whose reduced label-mask values are
≥ 1/2 for some labels ends the compositing stage (before the lighting
multiply) with the overlay colormap colour of the face multiplied
elementwise, in label input order, by each covering label's colour with
alpha preset to `label_alpha`. -/
theorem C1_label_tint_multiplies_overlay (g cm : ℚ → Color) (sulcB : List ℚ)
    (cmask : Option (List ℚ)) (o : List ℚ) (vmin vmax : ℚ) (t : Option ℚ)
    (labelsV : List (List ℚ)) (lcs : List Color) (al : ℚ) (faces : List Face)
    (i : ℕ)
    (hi : i ∈ keptWithThreshold (keptCortex cmask faces) o t) :
    faceColorsPreLight g cm sulcB cmask (some o) vmin vmax t labelsV lcs al
        faces i
      = (((labelsV.map (fun L => labelMaskFaces L faces)).zip
            (lcs.map (fun c => setAlpha c al))).filter
          (fun p => decide ((1:ℚ)/2 ≤ p.1.getD i 0))).foldl
          (fun c p => tint c p.2)
          (cm ((o.getD i 0 - vmin) / (vmax - vmin))) := by
  unfold faceColorsPreLight
  rw [labelAssign_apply]
  congr 1
  have hkept : i ∈ keptCortex cmask faces := mem_kept_of_mem_keptWithThreshold hi
  cases cmask with
  | none =>
    simp only [overlayAssign, if_pos hi]
  | some m =>
    have hnotmasked : i ∉ maskedIndices m faces := by
      intro hmem
      have h1 : (1:ℚ)/2 ≤ (labelMaskFaces m faces).getD i 0 :=
        of_decide_eq_true (List.mem_filter.mp hkept).2
      have h2 : (labelMaskFaces m faces).getD i 0 < (1:ℚ)/2 :=
        of_decide_eq_true (List.mem_filter.mp hmem).2
      exact absurd h1 (not_le.mpr h2)
    simp only [maskAssign, if_neg hnotmasked, overlayAssign, if_pos hi]

/-- Witness for C1: a single face kept by the overlay stage and covered by
one label; its final colour is the overlay colour tinted by the label
colour. -/
theorem C1_label_tint_multiplies_overlay_witness :
    ((0:ℕ) ∈ keptWithThreshold (keptCortex none [((0:ℕ), (1:ℕ), (2:ℕ))])
        [5] none)
    ∧ faceColorsPreLight (fun _ => Color.mk 1 1 1 1)
        (fun q => Color.mk q 0 0 1) [1] none (some [5]) 1 9 none
        [[1, 1, 1]] [Color.mk (1/2) (1/4) 1 1] (1/2) [((0:ℕ), (1:ℕ), (2:ℕ))] 0
      = ((([[(1:ℚ), 1, 1]].map
            (fun L => labelMaskFaces L [((0:ℕ), (1:ℕ), (2:ℕ))])).zip
            ([Color.mk (1/2) (1/4) 1 1].map (fun c => setAlpha c (1/2)))).filter
          (fun p => decide ((1:ℚ)/2 ≤ p.1.getD 0 0))).foldl
          (fun c p => tint c p.2)
          ((fun q => Color.mk q 0 0 1) ((([5] : List ℚ).getD 0 0 - 1) / (9 - 1))) := by
  have hi : (0:ℕ) ∈ keptWithThreshold (keptCortex none [((0:ℕ), (1:ℕ), (2:ℕ))])
      [5] none := by
    simp [keptWithThreshold, keptCortex, List.mem_range]
  exact ⟨hi, C1_label_tint_multiplies_overlay (fun _ => Color.mk 1 1 1 1)
    (fun q => Color.mk q 0 0 1) [1] none [5] 1 9 none [[1, 1, 1]]
    [Color.mk (1/2) (1/4) 1 1] (1/2) [((0:ℕ), (1:ℕ), (2:ℕ))] 0 hi⟩

/-! ## Input validation (lines 203-207, 220-224, 238-249)

The three `raise ValueError(...)` sites of `plot_surf4`, in source order, all
executed before any drawing (which starts at line 304).  The overlay array's
shape is modelled by its number of dimensions and first-axis length. -/

/-- The shape of a loaded overlay array: `len(overlay.shape)` and
`overlay.shape[0]`. -/
structure OverlayShape where
  ndim : ℕ
  len0 : ℕ
deriving DecidableEq, Repr

/-- Lines 238-249: overlay dimension and vertex-count checks, in source
order. -/
def checkOverlay (nverts : ℕ) (overlay : Option OverlayShape) :
    Except String Unit :=
  match overlay with
  | some o =>
      if o.ndim ≠ 1 then
        .error "overlay can only have one dimension"
      else if o.len0 ≠ nverts then
        .error "The overlay does not have the same number of vertices as the mesh."
      else .ok ()
  | none => .ok ()

/-- Lines 220-224 followed by the overlay checks: label/colour list length
check. -/
def checkLabels (nverts : ℕ) (labels : Option (List (List ℕ)))
    (labelColors : List Color) (overlay : Option OverlayShape) :
    Except String Unit :=
  match labels with
  | some ls =>
      if labelColors.length ≠ ls.length then
        .error "labels and label_colors must be lists of the same length."
      else checkOverlay nverts overlay
  | none => checkOverlay nverts overlay

/-- Lines 203-207, 220-224, 238-249: the validation performed for one
hemisphere, in source order; the first failing check raises.  Returns
`Except.error msg` for a raise and `Except.ok ()` when rendering proceeds. -/
def checkHemi (nverts : ℕ) (sulc : Option (List ℚ))
    (labels : Option (List (List ℕ))) (labelColors : List Color)
    (overlay : Option OverlayShape) : Except String Unit :=
  match sulc with
  | some s =>
      if s.length ≠ nverts then
        .error "The sulcal map does not have the same number of vertices as the mesh."
      else checkLabels nverts labels labelColors overlay
  | none => checkLabels nverts labels labelColors overlay

theorem checkOverlay_error_iff (nverts : ℕ) (overlay : Option OverlayShape) :
    (∃ e, checkOverlay nverts overlay = .error e)
      ↔ (∃ o, overlay = some o ∧ (o.ndim ≠ 1 ∨ o.len0 ≠ nverts)) := by
  rcases overlay with _ | o
  · simp [checkOverlay]
  · simp only [checkOverlay]
    split_ifs with h1 h2 <;> simp_all

theorem checkLabels_error_iff (nverts : ℕ) (labels : Option (List (List ℕ)))
    (labelColors : List Color) (overlay : Option OverlayShape) :
    (∃ e, checkLabels nverts labels labelColors overlay = .error e)
      ↔ ((∃ ls, labels = some ls ∧ labelColors.length ≠ ls.length)
        ∨ (∃ o, overlay = some o ∧ (o.ndim ≠ 1 ∨ o.len0 ≠ nverts))) := by
  rcases labels with _ | ls
  · simp only [checkLabels, checkOverlay_error_iff]
    simp
  · simp only [checkLabels]
    split_ifs with h1
    · simp_all
    · simp only [checkOverlay_error_iff]
      simp_all

/-- C8: assuming every loaded overlay has at least one dimension,
`plot_surf4`'s validation raises an error (and hence nothing is rendered)
exactly when: the sulcal map length differs from the vertex count, or the
label-colour list length differs from the label list length, or the overlay
has more than one dimension, or the overlay's vertex count differs from the
mesh's. -/
theorem C8_fatal_validation (nverts : ℕ) (sulc : Option (List ℚ))
    (labels : Option (List (List ℕ))) (labelColors : List Color)
    (overlay : Option OverlayShape)
    (hnd : ∀ o, overlay = some o → 1 ≤ o.ndim) :
    (∃ e, checkHemi nverts sulc labels labelColors overlay = .error e)
      ↔ ((∃ s, sulc = some s ∧ s.length ≠ nverts)
        ∨ (∃ ls, labels = some ls ∧ labelColors.length ≠ ls.length)
        ∨ (∃ o, overlay = some o ∧ (1 < o.ndim ∨ o.len0 ≠ nverts))) := by
  have hdim : ∀ o : OverlayShape, overlay = some o →
      (o.ndim ≠ 1 ↔ 1 < o.ndim) := by
    intro o ho
    have := hnd o ho
    omega
  have hov : (∃ o, overlay = some o ∧ (o.ndim ≠ 1 ∨ o.len0 ≠ nverts))
      ↔ (∃ o, overlay = some o ∧ (1 < o.ndim ∨ o.len0 ≠ nverts)) := by
    constructor
    · rintro ⟨o, ho, h | h⟩
      · exact ⟨o, ho, Or.inl ((hdim o ho).mp h)⟩
      · exact ⟨o, ho, Or.inr h⟩
    · rintro ⟨o, ho, h | h⟩
      · exact ⟨o, ho, Or.inl ((hdim o ho).mpr h)⟩
      · exact ⟨o, ho, Or.inr h⟩
  rcases sulc with _ | s
  · simp only [checkHemi, checkLabels_error_iff, hov]
    simp
  · simp only [checkHemi]
    split_ifs with h1
    · simp_all
    · simp only [checkLabels_error_iff, hov]
      simp_all

/-- Witness for C8: a 3-vertex mesh with a 2-vertex sulcal map errors; with a
matching sulcal map and a 1-dimensional 3-vertex overlay it passes. -/
theorem C8_fatal_validation_witness :
    ((∀ o : OverlayShape, (some ⟨1, 3⟩ : Option OverlayShape) = some o → 1 ≤ o.ndim)
      ∧ ((∃ e, checkHemi 3 (some [0, 0]) none [] (some ⟨1, 3⟩) = .error e)
        ↔ ((∃ s, (some [(0:ℚ), 0] : Option (List ℚ)) = some s ∧ s.length ≠ 3)
          ∨ (∃ ls, (none : Option (List (List ℕ))) = some ls
              ∧ ([] : List Color).length ≠ ls.length)
          ∨ (∃ o, (some ⟨1, 3⟩ : Option OverlayShape) = some o
              ∧ (1 < o.ndim ∨ o.len0 ≠ 3)))))
    ∧ (∃ e, checkHemi 3 (some [0, 0]) none [] (some ⟨1, 3⟩) = .error e) := by
  have hnd : ∀ o : OverlayShape, (some ⟨1, 3⟩ : Option OverlayShape) = some o →
      1 ≤ o.ndim := by
    intro o ho
    cases ho
    norm_num
  refine ⟨⟨hnd, C8_fatal_validation 3 (some [0, 0]) none [] (some ⟨1, 3⟩) hnd⟩, ?_⟩
  exact (C8_fatal_validation 3 (some [0, 0]) none [] (some ⟨1, 3⟩) hnd).mpr
    (Or.inl ⟨[0, 0], rfl, by norm_num⟩)

/-! ## Projection and depth-sorted emission (lines 304-321)

```
V = np.c_[vertices, ones] @ MVP.T ; V /= V[:,3].reshape(-1,1) ; V = V[faces]
T = V[:,:,:2] ; Z = -V[:,:,2].mean(axis=1)
Zorder = np.argsort(Z) ; T, C = T[Zorder,:], face_colors[Zorder,:]
```
The MVP matrix (a per-view composition of perspective, translation and
rotations, built once per view) is a parameter; the sort is modelled by a
stable insertion sort on the face indices — `np.argsort` likewise returns
some permutation putting the keys in ascending order. -/

/-- A 4×4 model-view-projection matrix. -/
abbrev Mat4 := Fin 4 → Fin 4 → ℚ

/-- Line 312 for one vertex: the MVP matrix applied to the homogenized
vertex `(x, y, z, 1)`. -/
def applyMVP (M : Mat4) (v : Vec3) : Fin 4 → ℚ :=
  fun r => M r 0 * v 0 + M r 1 * v 1 + M r 2 * v 2 + M r 3

/-- Line 313: perspective division — component `r` of vertex `i` after
dividing by the homogeneous `w` component. -/
def ndcCoord (M : Mat4) (verts : List Vec3) (i : ℕ) (r : Fin 4) : ℚ :=
  applyMVP M (verts.getD i (fun _ => 0)) r
    / applyMVP M (verts.getD i (fun _ => 0)) 3

/-- Line 316: screen-space x,y of one vertex. -/
def screenVert (M : Mat4) (verts : List Vec3) (i : ℕ) : ℚ × ℚ :=
  (ndcCoord M verts i 0, ndcCoord M verts i 1)

/-- The three screen-space corners of one face (one row of `T`). -/
def screenTri (M : Mat4) (verts : List Vec3) (f : Face) :
    (ℚ × ℚ) × (ℚ × ℚ) × (ℚ × ℚ) :=
  (screenVert M verts f.1, screenVert M verts f.2.1, screenVert M verts f.2.2)

/-- Line 318: the depth key `Z = -V[:,:,2].mean(axis=1)` of one face — the
negated mean of the perspective-divided z coordinates of its 3 vertices. -/
def depthKey (M : Mat4) (verts : List Vec3) (f : Face) : ℚ :=
  -((ndcCoord M verts f.1 2 + ndcCoord M verts f.2.1 2
      + ndcCoord M verts f.2.2 2) / 3)

/-- Line 320: `Zorder = np.argsort(Z)` — the face indices ordered by
ascending depth key. -/
def zOrder (keys : List ℚ) : List ℕ :=
  List.insertionSort (fun i j => keys.getD i 0 ≤ keys.getD j 0)
    (List.range keys.length)

/-- Line 321 and the `PolyCollection` call: the (triangle, colour) pairs in
paint order — both arrays permuted by the same `Zorder`. -/
def emitTriangles (M : Mat4) (verts : List Vec3) (faces : List Face)
    (colors : List Color) : List (((ℚ × ℚ) × (ℚ × ℚ) × (ℚ × ℚ)) × Color) :=
  (zOrder (faces.map (depthKey M verts))).map
    (fun i => (screenTri M verts (faces.getD i (0, 0, 0)),
      colors.getD i ⟨1, 1, 1, 1⟩))

/-- C2: the paint order is a permutation of all face indices, ascending in
the depth key (negated mean of the perspective-divided z of the 3 vertices);
triangles and face colours are permuted by that same order, and a face with
strictly smaller depth key (farther from the camera) is always emitted
before one with a larger key. -/
theorem C2_depth_sorted_emission (M : Mat4) (verts : List Vec3)
    (faces : List Face) (colors : List Color) :
    (zOrder (faces.map (depthKey M verts))).Perm (List.range faces.length)
    ∧ (zOrder (faces.map (depthKey M verts))).Pairwise
        (fun i j => (faces.map (depthKey M verts)).getD i 0
          ≤ (faces.map (depthKey M verts)).getD j 0)
    ∧ emitTriangles M verts faces colors
        = (zOrder (faces.map (depthKey M verts))).map
            (fun i => (screenTri M verts (faces.getD i (0, 0, 0)),
              colors.getD i ⟨1, 1, 1, 1⟩))
    ∧ (∀ (p q : ℕ) (hp : p < (zOrder (faces.map (depthKey M verts))).length)
        (hq : q < (zOrder (faces.map (depthKey M verts))).length),
        (faces.map (depthKey M verts)).getD
            ((zOrder (faces.map (depthKey M verts))).get ⟨p, hp⟩) 0
          < (faces.map (depthKey M verts)).getD
              ((zOrder (faces.map (depthKey M verts))).get ⟨q, hq⟩) 0
        → p < q) := by
  set keys := faces.map (depthKey M verts) with hkeys
  haveI : IsTotal ℕ (fun i j => keys.getD i 0 ≤ keys.getD j 0) :=
    ⟨fun i j => le_total _ _⟩
  haveI : IsTrans ℕ (fun i j => keys.getD i 0 ≤ keys.getD j 0) :=
    ⟨fun _ _ _ h1 h2 => le_trans h1 h2⟩
  have hsorted : (zOrder keys).Pairwise
      (fun i j => keys.getD i 0 ≤ keys.getD j 0) := by
    have := List.sorted_insertionSort
      (fun i j => keys.getD i 0 ≤ keys.getD j 0) (List.range keys.length)
    exact this
  have hlen : keys.length = faces.length := by
    rw [hkeys, List.length_map]
  have hperm : (zOrder keys).Perm (List.range faces.length) := by
    rw [zOrder, ← hlen]
    exact List.perm_insertionSort _ _
  refine ⟨hperm, hsorted, rfl, ?_⟩
  intro p q hp hq hlt
  by_contra hnot
  rcases lt_or_eq_of_le (not_lt.mp hnot) with hqp | hqp
  · have := (List.pairwise_iff_get.mp hsorted) ⟨q, hq⟩ ⟨p, hp⟩ hqp
    exact absurd hlt (not_lt.mpr this)
  · subst hqp
    exact lt_irrefl _ hlt

/-- The identity MVP matrix used by the C2 witness. -/
def wMVP : Mat4 := fun r c => if r = c then 1 else 0

/-- The C2 witness mesh: one triangle at z = 0 and one at z = 5. -/
def wVerts : List Vec3 :=
  [fun _ => 0,
   fun a => if a = 0 then 1 else 0,
   fun a => if a = 1 then 1 else 0,
   fun a => if a = 2 then 5 else 0,
   fun a => if a = 0 then 1 else if a = 2 then 5 else 0,
   fun a => if a = 1 then 1 else if a = 2 then 5 else 0]

/-- The C2 witness faces. -/
def wFaces : List Face := [(0, 1, 2), (3, 4, 5)]

/-- The C2 witness depth keys. -/
def wKeys : List ℚ := wFaces.map (depthKey wMVP wVerts)

/-- Witness for C2: on the 2-face witness mesh under the identity MVP the
far face (mean z = 5, key = −5) sits at paint position 0 and the near face
(key = 0) at position 1, and position 0 precedes position 1. -/
theorem C2_depth_sorted_emission_witness :
    ∃ hp : (0:ℕ) < (zOrder wKeys).length,
      ∃ hq : (1:ℕ) < (zOrder wKeys).length,
        wKeys.getD ((zOrder wKeys).get ⟨0, hp⟩) 0
            < wKeys.getD ((zOrder wKeys).get ⟨1, hq⟩) 0
        ∧ (0:ℕ) < 1 := by
  have hk : wKeys = [0, -5] := by
    norm_num +decide [wKeys, wFaces, wMVP, wVerts, depthKey, ndcCoord, applyMVP]
  have hz : zOrder wKeys = [1, 0] := by
    rw [zOrder, hk]
    norm_num [List.insertionSort, List.orderedInsert, List.range,
      List.range.loop, List.getD]
  have hp : (0:ℕ) < (zOrder wKeys).length := by rw [hz]; norm_num
  have hq : (1:ℕ) < (zOrder wKeys).length := by rw [hz]; norm_num
  have hg0 : (zOrder wKeys).get ⟨0, hp⟩ = 1 := by
    rw [List.get_of_eq hz]
    rfl
  have hg1 : (zOrder wKeys).get ⟨1, hq⟩ = 0 := by
    rw [List.get_of_eq hz]
    rfl
  have hlt : wKeys.getD ((zOrder wKeys).get ⟨0, hp⟩) 0
      < wKeys.getD ((zOrder wKeys).get ⟨1, hq⟩) 0 := by
    rw [hg0, hg1, hk]
    norm_num [List.getD]
  exact ⟨hp, hq, hlt,
    (C2_depth_sorted_emission wMVP wVerts wFaces []).2.2.2 0 1
      (by simpa [wKeys] using hp) (by simpa [wKeys] using hq)
      (by simpa [wKeys] using hlt)⟩

end Brain4Views
